import Mathlib

/-!
Verification of the batch-delivery pipeline
(`scripts/Data-reorganizate`): filtering, chunking, payload
preparation, the sent-uid ledger, the acceptance policy, and the
retry/backoff orchestrator in `batcher/sender.py`.

Python strings are modelled as Lean `String`; Python dictionaries of
CSV records as a structure of `Option String` fields; the ledger file
as `Option (List String)` (`none` = missing file, `some lines` = its
lines); time delays are recorded symbolically as rational numbers.
-/

namespace Batcher

/-- Python whitespace characters recognised by `str.strip()`. -/
def pyWs (c : Char) : Bool :=
  c = ' ' || c = '\t' || c = '\n' || c = '\r' || c = '\x0b' || c = '\x0c'

/-- Python `str.strip()`: drop leading and trailing whitespace. -/
def pyStrip (s : String) : String :=
  String.mk (((s.toList.dropWhile pyWs).reverse.dropWhile pyWs).reverse)

/-- Python `str.lower()` (ASCII case folding, which is what the data uses). -/
def pyLower (s : String) : String :=
  String.mk (s.toList.map Char.toLower)

/-- Python `needle in hay` substring test. -/
def pyContains (hay needle : String) : Bool :=
  decide (List.IsInfix needle.toList hay.toList)

/-- Python truthiness of an optional string (`None` and `""` are falsy). -/
def pyTruthy : Option String → Bool
  | none => false
  | some s => s ≠ ""

/-- `utils.chunked`: slices `iterable[i : i + size]` for
`i = 0, size, 2*size, ...` (for `size = 0` Python's `range` raises, so the
function is only meaningful for positive `size`). -/
def chunked {α : Type} : List α → Nat → List (List α)
  | [], _ => []
  | _ :: _, 0 => []
  | a :: rest, s + 1 => (a :: rest).take (s + 1) :: chunked (rest.drop s) (s + 1)
termination_by l _ => l.length
decreasing_by
  simp only [List.length_drop, List.length_cons]
  omega

theorem chunked_nil {α : Type} (s : Nat) : chunked ([] : List α) s = [] := by
  simp [chunked]

theorem chunked_cons {α : Type} (a : α) (rest : List α) (s : Nat) :
    chunked (a :: rest) (s + 1) =
      (a :: rest).take (s + 1) :: chunked ((a :: rest).drop (s + 1)) (s + 1) := by
  rw [List.drop_succ_cons]
  simp [chunked]

theorem chunked_ne_nil {α : Type} (l : List α) (s : Nat) (hl : l ≠ []) :
    chunked l (s + 1) ≠ [] := by
  cases l with
  | nil => exact absurd rfl hl
  | cons a rest => rw [chunked_cons]; simp

theorem getLast?_cons_ne {α : Type} (a : α) (l : List α) (h : l ≠ []) :
    (a :: l).getLast? = l.getLast? := by
  cases l with
  | nil => exact absurd rfl h
  | cons b t => exact List.getLast?_cons_cons

/-- Ceiling division helper used to state the chunk-count law. -/
theorem ceil_div_step (n s : Nat) (hs : 0 < s) (hn : 0 < n) :
    (n + s - 1) / s = (n - s + s - 1) / s + 1 := by
  have h1 : n + s - 1 = (n - 1) + s := by omega
  rw [h1, Nat.add_div_right _ hs]
  congr 1
  rcases le_or_lt s n with h | h
  · congr 1; omega
  · have h2 : n - s = 0 := by omega
    rw [h2]
    rw [Nat.div_eq_of_lt (by omega), Nat.div_eq_of_lt (by omega)]

theorem chunked_length_aux {α : Type} (s : Nat) :
    ∀ (n : Nat) (l : List α), l.length ≤ n →
      (chunked l (s + 1)).length = (l.length + (s + 1) - 1) / (s + 1) := by
  intro n
  induction n with
  | zero =>
    intro l hl
    have h0 : l = [] := List.eq_nil_of_length_eq_zero (by omega)
    subst h0
    rw [chunked_nil]
    simp only [List.length, List.length_nil, Nat.zero_add]
    exact (Nat.div_eq_of_lt (by omega)).symm
  | succ n ih =>
    intro l hl
    cases l with
    | nil =>
      rw [chunked_nil]
      simp only [List.length, List.length_nil, Nat.zero_add]
      exact (Nat.div_eq_of_lt (by omega)).symm
    | cons a rest =>
      rw [chunked_cons]
      have hd : ((a :: rest).drop (s + 1)).length ≤ n := by
        rw [List.length_drop, List.length_cons]
        have := List.length_cons a rest ▸ hl
        omega
      rw [List.length_cons, ih _ hd, List.length_drop]
      have hpos : 0 < (a :: rest).length := by simp
      rw [ceil_div_step (a :: rest).length (s + 1) (by omega) hpos]

theorem chunked_dropLast_aux {α : Type} (s : Nat) :
    ∀ (n : Nat) (l : List α), l.length ≤ n →
      ∀ b ∈ (chunked l (s + 1)).dropLast, b.length = s + 1 := by
  intro n
  induction n with
  | zero =>
    intro l hl
    have h0 : l = [] := List.eq_nil_of_length_eq_zero (by omega)
    subst h0
    rw [chunked_nil]
    simp
  | succ n ih =>
    intro l hl
    cases l with
    | nil => rw [chunked_nil]; simp
    | cons a rest =>
      rw [chunked_cons]
      intro b hb
      by_cases hd : (a :: rest).drop (s + 1) = []
      · rw [hd, chunked_nil] at hb
        simp at hb
      · have hne : chunked ((a :: rest).drop (s + 1)) (s + 1) ≠ [] :=
          chunked_ne_nil _ s hd
        rw [List.dropLast_cons_of_ne_nil hne] at hb
        rcases List.mem_cons.mp hb with hb | hb
        · subst hb
          have hsl : s + 1 ≤ (a :: rest).length := by
            by_contra hcon
            push_neg at hcon
            exact hd (List.drop_eq_nil_of_le (Nat.le_of_lt hcon))
          rw [List.length_take]
          omega
        · have hdl : ((a :: rest).drop (s + 1)).length ≤ n := by
            rw [List.length_drop, List.length_cons]
            have := List.length_cons a rest ▸ hl
            omega
          exact ih _ hdl b hb

theorem chunked_getLast_aux {α : Type} (s : Nat) :
    ∀ (n : Nat) (l : List α), l.length ≤ n → l ≠ [] →
      ∃ lb, (chunked l (s + 1)).getLast? = some lb ∧
        1 ≤ lb.length ∧ lb.length ≤ s + 1 := by
  intro n
  induction n with
  | zero =>
    intro l hl hne
    have h0 : l = [] := List.eq_nil_of_length_eq_zero (by omega)
    exact absurd h0 hne
  | succ n ih =>
    intro l hl hne
    cases l with
    | nil => exact absurd rfl hne
    | cons a rest =>
      rw [chunked_cons]
      by_cases hd : (a :: rest).drop (s + 1) = []
      · rw [hd, chunked_nil]
        refine ⟨(a :: rest).take (s + 1), rfl, ?_, ?_⟩
        · have hsl : (a :: rest).length ≤ s + 1 :=
            List.drop_eq_nil_iff.mp hd
          rw [List.length_take, List.length_cons]
          omega
        · rw [List.length_take]
          exact min_le_left _ _
      · have hdl : ((a :: rest).drop (s + 1)).length ≤ n := by
          rw [List.length_drop, List.length_cons]
          have := List.length_cons a rest ▸ hl
          omega
        obtain ⟨lb, hlb, h1, h2⟩ := ih _ hdl hd
        refine ⟨lb, ?_, h1, h2⟩
        rw [getLast?_cons_ne _ _ (chunked_ne_nil _ s hd)]
        exact hlb

theorem chunked_join_aux {α : Type} (s : Nat) :
    ∀ (n : Nat) (l : List α), l.length ≤ n → (chunked l (s + 1)).flatten = l := by
  intro n
  induction n with
  | zero =>
    intro l hl
    have h0 : l = [] := List.eq_nil_of_length_eq_zero (by omega)
    subst h0
    rw [chunked_nil]
    rfl
  | succ n ih =>
    intro l hl
    cases l with
    | nil => rw [chunked_nil]; rfl
    | cons a rest =>
      rw [chunked_cons]
      have hdl : ((a :: rest).drop (s + 1)).length ≤ n := by
        rw [List.length_drop, List.length_cons]
        have := List.length_cons a rest ▸ hl
        omega
      rw [List.flatten_cons, ih _ hdl, List.take_append_drop]

/-! ## Records and filtering (`filtering.py`, `send_batches.py`) -/

/-- A CSV record: a string-keyed mapping, restricted to the fields the
pipeline reads; `none` models a missing key. -/
structure Record where
  uid : Option String := none
  name : Option String := none
  description : Option String := none
  url : Option String := none
  tags : Option String := none
  approval_status : Option String := none
  audience : Option String := none
  type : Option String := none
  resource_type : Option String := none
  format : Option String := none
  theme : Option String := none
  category : Option String := none
  topic : Option String := none
  api_endpoint : Option String := none
deriving DecidableEq

/-- The `approval_status` check shared by `basic_prefilter` and
`_filter_by_type`: the field must be present and equal `"approved"` after
stripping and lowercasing (a missing field is treated as not approved). -/
def approvedGate (r : Record) : Bool :=
  match r.approval_status with
  | none => false
  | some s => pyLower (pyStrip s) == "approved"

/-- The `audience` check shared by `basic_prefilter` and `_filter_by_type`:
the field must be present and equal `"public"` after stripping and
lowercasing (a missing field is treated as not public). -/
def publicGate (r : Record) : Bool :=
  match r.audience with
  | none => false
  | some s => pyLower (pyStrip s) == "public"

/-- `send_batches.basic_prefilter`: keep records passing both gates
(the Python loop builds a fresh list, leaving the input unchanged). -/
def basic_prefilter (records : List Record) : List Record :=
  records.filter fun r => approvedGate r && publicGate r

/-- The type-classification candidate fields inspected by
`_filter_by_type` (note: `api_endpoint` is not among them). -/
def candidates (r : Record) : List (Option String) :=
  [r.type, r.resource_type, r.format, r.theme, r.category, r.topic]

/-- One candidate-field comparison in `_filter_by_type`:
`rt == cs or rt in cs or cs in rt` on the stripped lowered field value;
a missing field (`None`) is skipped. `rt` is already normalized. -/
def typeMatch (rt : String) : Option String → Bool
  | none => false
  | some v =>
    let cs := pyLower (pyStrip v)
    rt == cs || pyContains cs rt || pyContains rt cs

/-- `filtering._filter_by_type`: approval/audience gates, then either the
`"data"`/`"resource"` alias rule (non-empty `api_endpoint` or `url`) or the
fuzzy candidate-field match (the Python loop builds a fresh list and
`continue`s on each failed check, i.e. it is a filter). -/
def filter_by_type (records : List Record) (resource_type : String) :
    List Record :=
  let rt := pyLower (pyStrip resource_type)
  records.filter fun rec =>
    approvedGate rec && publicGate rec &&
      (if rt == "data" || rt == "resource" then
        pyTruthy rec.api_endpoint || pyTruthy rec.url
      else (candidates rec).any (typeMatch rt))

/-! ## Payload preparation (`batcher/utils.py`) -/

/-- A payload item: the five-field projection produced by
`utils.prepare_payload`. -/
structure PayloadItem where
  uid : String
  name : String
  description : String
  url : String
  tags : String
deriving DecidableEq

/-- `utils._sanitize`: `s.replace("\r", " ").replace("\x00", "")`; both
patterns are single characters, so the replacements act character-wise. -/
def sanitize (s : String) : String :=
  String.mk (((s.toList.map fun c => if c = '\r' then ' ' else c).filter
    fun c => !(c == '\x00')))

/-- The per-record projection inside `utils.prepare_payload`:
`_sanitize((r.get(k) or "").strip())` for each of the five keys. -/
def projectItem (r : Record) : PayloadItem :=
  { uid := sanitize (pyStrip (r.uid.getD ""))
    name := sanitize (pyStrip (r.name.getD ""))
    description := sanitize (pyStrip (r.description.getD ""))
    url := sanitize (pyStrip (r.url.getD ""))
    tags := sanitize (pyStrip (r.tags.getD "")) }

/-- `utils.prepare_payload`. -/
def prepare_payload (records : List Record) : List PayloadItem :=
  records.map projectItem

/-- Sanitization as claim C9 words it: carriage returns and NUL bytes are
*removed* (deleted) from the string. Stated only to compare against the
code's `sanitize`, which replaces a carriage return by a space. -/
def sanitizeRemoval (s : String) : String :=
  String.mk (s.toList.filter fun c => !(c == '\r' || c == '\x00'))

/-! ## The sent-uid ledger (`batcher/state.py`) -/

/-- Text split at newline characters (`n` newlines yield `n + 1` pieces).
Together with the per-line strip and the drop of empty results below,
this is exactly what Python's `for line in f` + `line.strip()` + `if v:`
computes over the file's text. -/
def splitNl : List Char → List (List Char)
  | [] => [[]]
  | c :: cs =>
    if c = '\n' then [] :: splitNl cs
    else
      match splitNl cs with
      | [] => [[c]]  -- unreachable: splitNl always yields at least one piece
      | l :: ls => (c :: l) :: ls

/-- `state.load_sent_uids`: the ledger file is modelled as its raw text;
`none` is a file that is missing or unreadable at open, where both
exception handlers return the still-empty set (an error raised
mid-iteration would return the partially accumulated set — still never a
failure — and is outside this model).  Every line is stripped, empty
results are dropped, and the result is a set. -/
def load_sent_uids : Option (List Char) → Finset String
  | none => ∅
  | some content =>
    (((splitNl content).map fun l => pyStrip (String.mk l)).filter
      fun v => v ≠ "").toFinset

/-- `state.append_sent_uids`: opens for append (creating the file and its
parent directory when absent) and writes `uid + "\n"` for each uid. -/
def append_sent_uids (file : Option (List Char)) (uids : List String) :
    Option (List Char) :=
  some (file.getD [] ++ (uids.map fun u => u.toList ++ ['\n']).flatten)

/-- The already-sent dedup step in `send_batches.main`: a record is skipped
exactly when its stripped uid is non-empty and already in the loaded set
(when the loaded set is empty the whole block is skipped, which keeps every
record just the same). -/
def dedupRemaining (sent : Finset String) (records : List Record) :
    List Record :=
  records.filter fun r =>
    !(pyStrip (r.uid.getD "") != "" && decide (pyStrip (r.uid.getD "") ∈ sent))

/-! ## Acceptance policy (`batcher/sender.py`, lines 24-62) -/

/-- A JSON value as far as the acceptance check distinguishes them:
`isinstance(v, int)`, `isinstance(v, str)`, or anything else (arrays,
objects, `null`; a JSON boolean is an `int` in Python and is modelled by
`jint 1`/`jint 0`). -/
inductive JVal
  | jint (n : Int)
  | jstr (s : String)
  | other
deriving DecidableEq

/-- One delivery-attempt result as returned by `client.post_json`:
status code, body text, and response headers.  `parsed` carries the result
of `json.loads(body)` *when it yields a mapping*; parse failures and
non-mapping JSON are treated identically by the code, so both are `none`. -/
structure Resp where
  status : Int
  body : String
  parsed : Option (List (String × JVal))
  headers : List (String × String)

/-- `parsed.get("status")` (JSON object keys are unique). -/
def jget (d : List (String × JVal)) (k : String) : Option JVal :=
  (d.find? fun p => p.1 == k).map Prod.snd

/-- The `for val in parsed.values()` scan: some string-valued field whose
lowercase form contains the success substring. -/
def scanVals (d : List (String × JVal)) (subs : String) : Bool :=
  d.any fun p =>
    match p.2 with
    | JVal.jstr s => pyContains (pyLower s) subs
    | _ => false

/-- The JSON-body inspection block of `send_payloads` (the `try` around
`json.loads`). -/
def jsonAccept (acc : List Int) (subs : String) :
    Option (List (String × JVal)) → Bool
  | none => false
  | some d =>
    match jget d "status" with
    | some (JVal.jint v) => if v ∈ acc then true else scanVals d subs
    | some (JVal.jstr s) =>
      if pyContains (pyLower s) subs then true else scanVals d subs
    | _ => scanVals d subs

/-- The header keys probed by `send_payloads`, in order. -/
def hdrKeys : List String := ["status", "x-status", "result", "x-result", "message"]

/-- `hdrs = {k.lower(): v ...}` then `hdrs.get(key)`: on duplicate
lowercased keys the last entry wins, hence the reversed search. -/
def hdrVal (hs : List (String × String)) (k : String) : Option String :=
  (hs.reverse.find? fun p => pyLower p.1 == k).map Prod.snd

/-- The header inspection block of `send_payloads`: stops at the first key
whose trimmed lowercase value is exactly `"ok"`/`"success"`, or contains the
success substring when one is configured. -/
def hdrAccept (subs : String) (hs : List (String × String)) : Bool :=
  hdrKeys.any fun k =>
    match hdrVal hs k with
    | none => false
    | some v =>
      let val := pyLower (pyStrip v)
      (val == "ok" || val == "success") || ((subs != "") && pyContains val subs)

/-- The complete acceptance decision of `send_payloads` for one attempt
(`accepted` flag computation, lines 24-62).  `subs` is the already
normalized `success_substring` (`(args.success_substring or "").strip().lower()`). -/
def acceptedCode (acc : List Int) (subs : String) (r : Resp) : Bool :=
  if r.status ∈ acc then
    if subs == "" then true
    else if pyContains (pyLower r.body) subs then true
    else if jsonAccept acc subs r.parsed then true
    else hdrAccept subs r.headers
  else false

/-- Step 4 of the spec's decision procedure, worded as in claim C2: status
field integer in the accept set, or status field string containing the
substring, or any string-valued field containing the substring. -/
def jsonSpecAccept (acc : List Int) (subs : String) :
    Option (List (String × JVal)) → Bool
  | none => false
  | some d =>
    (match jget d "status" with
      | some (JVal.jint v) => decide (v ∈ acc)
      | _ => false)
    || (match jget d "status" with
      | some (JVal.jstr s) => pyContains (pyLower s) subs
      | _ => false)
    || scanVals d subs

/-- Step 5 of the spec's decision procedure, worded as in claim C2: some
probed header's trimmed lowercase value is exactly `"ok"`/`"success"` or
contains the substring. -/
def hdrSpecAccept (subs : String) (hs : List (String × String)) : Bool :=
  hdrKeys.any fun k =>
    match hdrVal hs k with
    | none => false
    | some v =>
      let val := pyLower (pyStrip v)
      val == "ok" || val == "success" || pyContains val subs

/-- The ordered short-circuit chain of spec §4.5 / claim C2. -/
def acceptedSpec (acc : List Int) (subs : String) (r : Resp) : Bool :=
  if r.status ∉ acc then false
  else if subs == "" then true
  else if pyContains (pyLower r.body) subs then true
  else if jsonSpecAccept acc subs r.parsed then true
  else hdrSpecAccept subs r.headers

/-! ## The orchestrator (`batcher/sender.py`, `send_payloads`) -/

/-- Observable side effects of a run: an HTTP POST of batch `idx`, attempt
`attempt` (1-indexed); a `time.sleep` of `d` seconds; an
`append_sent_uids` of `uids` to the ledger. -/
inductive Ev
  | post (idx attempt : Nat)
  | sleep (d : ℚ)
  | append (uids : List String)
deriving DecidableEq

/-- The uids a just-accepted batch contributes to the ledger:
`[(item.get("uid") or "").strip() for item in body if (item.get("uid") or "").strip()]`. -/
def batchUids (body : List PayloadItem) : List String :=
  (body.map fun it => pyStrip it.uid).filter fun u => u ≠ ""

/-- The `while attempt < args.max_retries and not sent` loop of
`send_payloads` for one batch.  `resp a` is the response to attempt `a`;
`fuel` is `max_retries - attempt`; returns the events of the loop body
(minus the post-acceptance ledger append and settle sleep, added by
`runBatch`) and the accepted attempt number, if any.  A rejected attempt
`a < max_retries` is followed by `sleep (ws * 2 ^ (a - 1))`; the final
rejected attempt is not followed by a sleep. -/
def attemptLoop (resp : Nat → Resp) (acc : List Int) (subs : String)
    (ws : ℚ) (idx : Nat) : Nat → Nat → List Ev × Option Nat
  | 0, _ => ([], none)
  | fuel + 1, attempt =>
    let a := attempt + 1
    if acceptedCode acc subs (resp a) then ([Ev.post idx a], some a)
    else if fuel = 0 then ([Ev.post idx a], none)
    else
      let rest := attemptLoop resp acc subs ws idx fuel a
      (Ev.post idx a :: Ev.sleep (ws * 2 ^ attempt) :: rest.1, rest.2)

/-- One batch of `send_payloads`: run the attempt loop; on acceptance
append the batch's uids to the ledger (only when the list is non-empty)
and sleep the settle delay `ws`. -/
def runBatch (resp : Nat → Resp) (acc : List Int) (subs : String) (ws : ℚ)
    (maxR : Nat) (idx : Nat) (body : List PayloadItem) : List Ev × Bool :=
  match (attemptLoop resp acc subs ws idx maxR 0).2 with
  | some _ =>
    ((attemptLoop resp acc subs ws idx maxR 0).1
      ++ (if batchUids body = [] then [] else [Ev.append (batchUids body)])
      ++ [Ev.sleep ws], true)
  | none => ((attemptLoop resp acc subs ws idx maxR 0).1, false)

/-- The batch loop of `send_payloads`, starting at batch number `idx`. -/
def sendGo (resp : Nat → Nat → Resp) (acc : List Int) (subs : String)
    (ws : ℚ) (maxR : Nat) : Nat → List (List PayloadItem) →
    List Ev × Option (Nat × Nat)
  | _, [] => ([], none)
  | idx, body :: rest =>
    if (runBatch (resp idx) acc subs ws maxR idx body).2 then
      ((runBatch (resp idx) acc subs ws maxR idx body).1
        ++ (sendGo resp acc subs ws maxR (idx + 1) rest).1,
       (sendGo resp acc subs ws maxR (idx + 1) rest).2)
    else
      ((runBatch (resp idx) acc subs ws maxR idx body).1, some (idx, maxR))

/-- `sender.send_payloads`: batches are numbered from 1.  The outcome
`some (idx, m)` models the terminating failure for batch `idx` ("Failed to
deliver batch {idx} after {max_retries} attempts." and the raised
`RuntimeError(f"Batch {idx} failed")`); `none` is a fully successful run.
`resp i a` is the response the webhook returns to attempt `a` of batch `i`. -/
def send_payloads (resp : Nat → Nat → Resp) (acc : List Int) (subs : String)
    (ws : ℚ) (maxR : Nat) (payloads : List (List PayloadItem)) :
    List Ev × Option (Nat × Nat) :=
  sendGo resp acc subs ws maxR 1 payloads

/-- All uids appended to the ledger over a run, in order. -/
def appendsOf (evs : List Ev) : List String :=
  evs.flatMap fun e =>
    match e with
    | Ev.append us => us
    | _ => []

/-! ## Claim C3: the chunking law -/

/-- C3: for every list of `N` items and every batch size `S > 0`,
`chunked` produces exactly `⌈N/S⌉` batches, every batch except possibly
the last has exactly `S` items, the last batch has between 1 and `S`
items when `N > 0`, and concatenating the batches in order reproduces the
input exactly. -/
theorem chunked_spec {α : Type} (l : List α) (s : Nat) (hs : 0 < s) :
    (chunked l s).length = (l.length + s - 1) / s
    ∧ (∀ b ∈ (chunked l s).dropLast, b.length = s)
    ∧ (l ≠ [] →
        ∃ lb, (chunked l s).getLast? = some lb ∧ 1 ≤ lb.length ∧ lb.length ≤ s)
    ∧ (chunked l s).flatten = l := by
  obtain ⟨t, rfl⟩ : ∃ t, s = t + 1 := ⟨s - 1, by omega⟩
  exact ⟨chunked_length_aux t l.length l le_rfl,
    chunked_dropLast_aux t l.length l le_rfl,
    fun h => chunked_getLast_aux t l.length l le_rfl h,
    chunked_join_aux t l.length l le_rfl⟩

theorem chunked_spec_witness :
    0 < 2
    ∧ ((chunked [1, 2, 3, 4, 5] 2).length = (([1, 2, 3, 4, 5] : List Nat).length + 2 - 1) / 2
      ∧ (∀ b ∈ (chunked [1, 2, 3, 4, 5] 2).dropLast, b.length = 2)
      ∧ (([1, 2, 3, 4, 5] : List Nat) ≠ [] →
          ∃ lb, (chunked [1, 2, 3, 4, 5] 2).getLast? = some lb
            ∧ 1 ≤ lb.length ∧ lb.length ≤ 2)
      ∧ (chunked [1, 2, 3, 4, 5] 2).flatten = [1, 2, 3, 4, 5]) :=
  ⟨by decide, chunked_spec [1, 2, 3, 4, 5] 2 (by decide)⟩

/-! ## Claim C6: the no-type filter -/

/-- C6: every record surviving `basic_prefilter` (the filter used when no
`type` argument is given) has `approval_status = "approved"` and
`audience = "public"` after trimming and lowercasing; a record missing
either field never survives (both existentials force the field to be
present); and the output is a sublist of the input: a fresh list, with
survivors in their original relative order and the input unchanged. -/
theorem basic_prefilter_spec (l : List Record) (r : Record)
    (h : r ∈ basic_prefilter l) :
    (∃ s, r.approval_status = some s ∧ pyLower (pyStrip s) = "approved")
    ∧ (∃ s, r.audience = some s ∧ pyLower (pyStrip s) = "public")
    ∧ List.Sublist (basic_prefilter l) l := by
  unfold basic_prefilter at h
  rw [List.mem_filter, Bool.and_eq_true] at h
  obtain ⟨-, h1, h2⟩ := h
  refine ⟨?_, ?_, List.filter_sublist l⟩
  · unfold approvedGate at h1
    cases ha : r.approval_status with
    | none => rw [ha] at h1; simp at h1
    | some s => rw [ha] at h1; exact ⟨s, rfl, by simpa using h1⟩
  · unfold publicGate at h2
    cases ha : r.audience with
    | none => rw [ha] at h2; simp at h2
    | some s => rw [ha] at h2; exact ⟨s, rfl, by simpa using h2⟩

def rOk : Record :=
  { approval_status := some " Approved", audience := some "public" }

theorem basic_prefilter_spec_witness :
    rOk ∈ basic_prefilter [rOk]
    ∧ ((∃ s, rOk.approval_status = some s ∧ pyLower (pyStrip s) = "approved")
      ∧ (∃ s, rOk.audience = some s ∧ pyLower (pyStrip s) = "public")
      ∧ List.Sublist (basic_prefilter [rOk]) [rOk]) :=
  ⟨by decide, basic_prefilter_spec [rOk] rOk (by decide)⟩

/-! ## Claims C7 and C8: the typed filter -/

/-- The pass-condition of claim C7, worded with the spec's §3 field list —
which includes `api_endpoint` among the type-classification fields. -/
def c7SpecPass (r : Record) (rt : String) : Bool :=
  approvedGate r && publicGate r &&
    (([r.type, r.resource_type, r.format, r.theme, r.category, r.topic,
        r.api_endpoint].filterMap id).any fun v =>
      pyLower (pyStrip rt) == pyLower (pyStrip v)
        || pyContains (pyLower (pyStrip v)) (pyLower (pyStrip rt))
        || pyContains (pyLower (pyStrip rt)) (pyLower (pyStrip v)))

def rApi : Record :=
  { approval_status := some "approved", audience := some "public",
    api_endpoint := some "api/v1/assets" }

/-- C7 counterexample: `"api"` is neither `"data"` nor `"resource"`; by
the claim the record `rApi` — approved, public, `api_endpoint` containing
`"api"` — should pass, but `_filter_by_type` never consults
`api_endpoint` (its candidate list stops at `topic`) and drops it. -/
theorem c7_counterexample :
    pyLower (pyStrip "api") ≠ "data" ∧ pyLower (pyStrip "api") ≠ "resource"
    ∧ c7SpecPass rApi "api" = true
    ∧ filter_by_type [rApi] "api" = [] := by decide

/-- C7 (amended): for a type whose trimmed lowercase form is neither
`"data"` nor `"resource"`, a record passes `_filter_by_type` iff it passes
the approval/audience gate and the normalized requested type equals, is a
substring of, or contains as a substring the lowercased trimmed value of
at least one of the six fields `type`, `resource_type`, `format`, `theme`,
`category`, `topic` (absent fields are skipped; `api_endpoint` is not
consulted). -/
theorem filter_by_type_match_spec (l : List Record) (rt : String) (r : Record)
    (h1 : pyLower (pyStrip rt) ≠ "data") (h2 : pyLower (pyStrip rt) ≠ "resource") :
    r ∈ filter_by_type l rt ↔
      r ∈ l ∧ approvedGate r = true ∧ publicGate r = true
      ∧ ∃ v ∈ (candidates r).filterMap id,
          pyLower (pyStrip rt) = pyLower (pyStrip v)
          ∨ pyContains (pyLower (pyStrip v)) (pyLower (pyStrip rt)) = true
          ∨ pyContains (pyLower (pyStrip rt)) (pyLower (pyStrip v)) = true := by
  have hcond : (pyLower (pyStrip rt) == "data"
      || pyLower (pyStrip rt) == "resource") = false := by
    simp only [Bool.or_eq_false_iff, beq_eq_false_iff_ne, ne_eq]
    exact ⟨h1, h2⟩
  unfold filter_by_type
  rw [List.mem_filter]
  simp only [hcond, Bool.false_eq_true, if_false, Bool.and_eq_true,
    List.any_eq_true, and_assoc]
  constructor
  · rintro ⟨hl, hga, hgp, c, hc, hm⟩
    refine ⟨hl, hga, hgp, ?_⟩
    cases c with
    | none => simp [typeMatch] at hm
    | some v =>
      refine ⟨v, List.mem_filterMap.mpr ⟨some v, hc, rfl⟩, ?_⟩
      simpa [typeMatch, Bool.or_eq_true, beq_iff_eq, or_assoc] using hm
  · rintro ⟨hl, hga, hgp, v, hv, hm⟩
    obtain ⟨c, hc, hcv⟩ := List.mem_filterMap.mp hv
    refine ⟨hl, hga, hgp, c, hc, ?_⟩
    cases c with
    | none => simp at hcv
    | some w =>
      have hwv : w = v := by simpa using hcv
      subst hwv
      simpa [typeMatch, Bool.or_eq_true, beq_iff_eq, or_assoc] using hm

def rData : Record :=
  { approval_status := some "approved", audience := some "public",
    type := some "Open Data", url := some "https://example.org/x" }

theorem filter_by_type_match_spec_witness :
    pyLower (pyStrip "open data") ≠ "data" ∧ pyLower (pyStrip "open data") ≠ "resource"
    ∧ (rData ∈ filter_by_type [rData] "open data" ↔
        rData ∈ [rData] ∧ approvedGate rData = true ∧ publicGate rData = true
        ∧ ∃ v ∈ (candidates rData).filterMap id,
            pyLower (pyStrip "open data") = pyLower (pyStrip v)
            ∨ pyContains (pyLower (pyStrip v)) (pyLower (pyStrip "open data")) = true
            ∨ pyContains (pyLower (pyStrip "open data")) (pyLower (pyStrip v)) = true) :=
  ⟨by decide, by decide,
    filter_by_type_match_spec [rData] "open data" rData (by decide) (by decide)⟩

/-- C8: for a type whose trimmed lowercase form is `"data"` or
`"resource"`, a record passes `_filter_by_type` iff it passes the
approval/audience gate and has a non-empty `api_endpoint` or a non-empty
`url`; the candidate-field matching is bypassed entirely. -/
theorem filter_by_type_alias_spec (l : List Record) (rt : String) (r : Record)
    (h : pyLower (pyStrip rt) = "data" ∨ pyLower (pyStrip rt) = "resource") :
    r ∈ filter_by_type l rt ↔
      r ∈ l ∧ approvedGate r = true ∧ publicGate r = true
      ∧ (pyTruthy r.api_endpoint = true ∨ pyTruthy r.url = true) := by
  have hcond : (pyLower (pyStrip rt) == "data"
      || pyLower (pyStrip rt) == "resource") = true := by
    rcases h with h | h <;> simp [h]
  unfold filter_by_type
  rw [List.mem_filter]
  simp only [hcond, if_true, Bool.and_eq_true, Bool.or_eq_true, and_assoc]

theorem filter_by_type_alias_spec_witness :
    (pyLower (pyStrip " Data ") = "data" ∨ pyLower (pyStrip " Data ") = "resource")
    ∧ (rData ∈ filter_by_type [rData] " Data " ↔
        rData ∈ [rData] ∧ approvedGate rData = true ∧ publicGate rData = true
        ∧ (pyTruthy rData.api_endpoint = true ∨ pyTruthy rData.url = true)) :=
  ⟨Or.inl (by decide),
    filter_by_type_alias_spec [rData] " Data " rData (Or.inl (by decide))⟩

/-! ## Claim C9: payload preparation -/

/-- All characters of a payload item's five fields. -/
def itemChars (p : PayloadItem) : List Char :=
  p.uid.toList ++ p.name.toList ++ p.description.toList
    ++ p.url.toList ++ p.tags.toList

def rCtrl : Record := { uid := some "a\rb", name := some "a\nb" }

/-- C9 counterexample: `_sanitize` replaces a carriage return with a
*space* rather than removing it (`"a\rb"` becomes `"a b"`, not `"ab"`),
and an interior newline survives sanitization, so the produced item does
contain a raw control character. -/
theorem c9_counterexample :
    prepare_payload [rCtrl]
      = [{ uid := "a b", name := "a\nb", description := "", url := "",
            tags := "" }]
    ∧ sanitizeRemoval (pyStrip "a\rb") = "ab"
    ∧ ("a b" : String) ≠ "ab"
    ∧ '\n' ∈ "a\nb".toList := by decide

theorem sanitize_no_cr_nul (s : String) :
    ∀ c ∈ (sanitize s).toList, c ≠ '\r' ∧ c ≠ '\x00' := by
  intro c hc
  have hc' : c ∈ ((s.toList.map fun c => if c = '\r' then ' ' else c).filter
      fun c => !(c == '\x00')) := hc
  rw [List.mem_filter] at hc'
  obtain ⟨hmap, hnul⟩ := hc'
  constructor
  · obtain ⟨c0, _, hc0⟩ := List.mem_map.mp hmap
    by_cases h : c0 = '\r'
    · rw [if_pos h] at hc0
      rw [← hc0]
      decide
    · rw [if_neg h] at hc0
      rw [← hc0]
      exact h
  · simpa using hnul

/-- C9 (amended): `prepare_payload` yields one payload item per input
record — the five-field projection that trims each field, replaces
carriage returns with a space and deletes NUL bytes — and the produced
items never contain a carriage return or a NUL byte (other control
characters, such as interior newlines or tabs, may remain). -/
theorem prepare_payload_spec (l : List Record) :
    (prepare_payload l).length = l.length
    ∧ prepare_payload l = l.map projectItem
    ∧ ∀ p ∈ prepare_payload l, ∀ c ∈ itemChars p, c ≠ '\r' ∧ c ≠ '\x00' := by
  refine ⟨by simp [prepare_payload], rfl, ?_⟩
  intro p hp c hc
  obtain ⟨r, -, hr⟩ := List.mem_map.mp hp
  subst hr
  unfold itemChars projectItem at hc
  simp only [List.mem_append] at hc
  rcases hc with ((((hc | hc) | hc) | hc) | hc) <;>
    exact sanitize_no_cr_nul _ c hc

/-! ## Claim C4: the ledger round-trip -/

theorem mk_toList (s : String) : String.mk s.toList = s := rfl

/-- A ledger file is well formed when it is missing, empty, or ends in a
newline — true of anything `append_sent_uids` ever writes, since every
write is newline-terminated. -/
def ledgerWF : Option (List Char) → Prop
  | none => True
  | some content => content = [] ∨ content.getLast? = some '\n'

/-- C4 counterexample: the claim quantifies over *every* ledger state and
*every* uid.  Appending the whitespace-only uid `" "` yields a line the
loader strips to `""` and drops; appending `"a\nb"` (non-empty and equal
to its stripped form) writes `"a\nb\n"`, i.e. the two lines `"a"` and
`"b"`; and appending `"u1"` to a file whose text `"x"` lacks a final
newline merges it into the line `"xu1"`.  In all three cases the loaded
set does not contain the appended uid. -/
theorem c4_counterexample :
    " " ∉ load_sent_uids (append_sent_uids (some []) [" "])
    ∧ (pyStrip "a\nb" = "a\nb" ∧ ("a\nb" : String) ≠ ""
      ∧ "a\nb" ∉ load_sent_uids (append_sent_uids (some []) ["a\nb"]))
    ∧ "u1" ∉ load_sent_uids (append_sent_uids (some ['x']) ["u1"]) := by
  decide

/-- Splitting text that starts with a newline-free line `l` followed by a
newline yields `l` and then the split of the remainder. -/
theorem splitNl_line : ∀ (l zs : List Char), '\n' ∉ l →
    splitNl (l ++ '\n' :: zs) = l :: splitNl zs := by
  intro l
  induction l with
  | nil =>
    intro zs _
    show splitNl ('\n' :: zs) = [] :: splitNl zs
    simp [splitNl]
  | cons c l' ih =>
    intro zs hnl
    rw [List.mem_cons, not_or] at hnl
    obtain ⟨hc, hl'⟩ := hnl
    show splitNl (c :: (l' ++ '\n' :: zs)) = (c :: l') :: splitNl zs
    simp only [splitNl]
    rw [if_neg (fun h => hc h.symm)]
    rw [ih zs hl']

/-- Splitting a block of newline-terminated lines followed by anything
yields those lines and then the split of the rest. -/
theorem splitNl_flat : ∀ (ls : List (List Char)) (rest : List Char),
    (∀ l ∈ ls, '\n' ∉ l) →
    splitNl ((ls.map fun l => l ++ ['\n']).flatten ++ rest)
      = ls ++ splitNl rest := by
  intro ls
  induction ls with
  | nil => intro rest _; simp
  | cons l ls' ih =>
    intro rest hls
    have hl : '\n' ∉ l := hls l (List.mem_cons_self l ls')
    have hls' : ∀ x ∈ ls', '\n' ∉ x :=
      fun x hx => hls x (List.mem_cons_of_mem l hx)
    simp only [List.map_cons, List.flatten_cons]
    rw [List.append_assoc, List.append_assoc]
    show splitNl (l ++ '\n' :: ((List.map (fun l => l ++ ['\n']) ls').flatten ++ rest))
      = (l :: ls') ++ splitNl rest
    rw [splitNl_line l _ hl, ih rest hls']
    rfl

/-- Every well-formed (empty or newline-terminated) text is a block of
newline-terminated, newline-free lines. -/
theorem wf_decomp : ∀ (cs : List Char), (cs = [] ∨ cs.getLast? = some '\n') →
    ∃ ls : List (List Char), (∀ l ∈ ls, '\n' ∉ l)
      ∧ cs = (ls.map fun l => l ++ ['\n']).flatten := by
  intro cs
  induction cs with
  | nil => intro _; exact ⟨[], by simp, rfl⟩
  | cons c cs' ih =>
    intro hwf
    rcases hwf with h | h
    · exact absurd h (by simp)
    · by_cases hc : c = '\n'
      · subst hc
        by_cases hnil : cs' = []
        · subst hnil
          exact ⟨[[]], by simp, by simp⟩
        · rw [getLast?_cons_ne _ _ hnil] at h
          obtain ⟨ls', hls', he⟩ := ih (Or.inr h)
          refine ⟨[] :: ls', ?_, ?_⟩
          · intro l hl
            rcases List.mem_cons.mp hl with rfl | hl
            · simp
            · exact hls' l hl
          · simp [he]
      · have hnil : cs' ≠ [] := by
          intro h0
          subst h0
          simp at h
          exact hc h
        rw [getLast?_cons_ne _ _ hnil] at h
        obtain ⟨ls', hls', he⟩ := ih (Or.inr h)
        cases ls' with
        | nil => simp at he; exact absurd he hnil
        | cons l0 ls'' =>
          refine ⟨(c :: l0) :: ls'', ?_, ?_⟩
          · intro l hl
            rcases List.mem_cons.mp hl with rfl | hl
            · rw [List.mem_cons, not_or]
              exact ⟨fun hh => hc hh.symm, hls' l0 (List.mem_cons_self l0 ls'')⟩
            · exact hls' l (List.mem_cons_of_mem l0 hl)
          · rw [he]
            simp

/-- C4 (amended): for every well-formed ledger state (missing, empty, or
newline-terminated — true of everything `append_sent_uids` writes) and
every uid that is non-empty, free of embedded newlines, and equal to its
stripped form, load after append returns a set containing the uid;
appending the same uid twice yields the same loaded set as appending it
once; and loading a missing or unreadable file yields the empty set
rather than an error. -/
theorem ledger_roundtrip (file : Option (List Char)) (u : String)
    (hwf : ledgerWF file) (h1 : pyStrip u = u) (h2 : u ≠ "")
    (h3 : '\n' ∉ u.toList) :
    u ∈ load_sent_uids (append_sent_uids file [u])
    ∧ load_sent_uids (append_sent_uids (append_sent_uids file [u]) [u])
      = load_sent_uids (append_sent_uids file [u])
    ∧ load_sent_uids none = ∅ := by
  obtain ⟨ls, hls, he⟩ : ∃ ls : List (List Char), (∀ l ∈ ls, '\n' ∉ l)
      ∧ file.getD [] = (ls.map fun l => l ++ ['\n']).flatten := by
    cases file with
    | none => exact ⟨[], by simp, rfl⟩
    | some content => exact wf_decomp content hwf
  have hemp : pyStrip (String.mk []) = "" := rfl
  have hpair : (([u.toList, ([] : List Char)]).map
      fun l => pyStrip (String.mk l)).filter (fun v => v ≠ "") = [u] := by
    show ([pyStrip (String.mk u.toList), pyStrip (String.mk [])]).filter
      (fun v => v ≠ "") = [u]
    rw [mk_toList, h1, hemp]
    simp [h2]
  have hsingle : (([u.toList] : List (List Char)).map
      fun l => pyStrip (String.mk l)).filter (fun v => v ≠ "") = [u] := by
    show ([pyStrip (String.mk u.toList)]).filter (fun v => v ≠ "") = [u]
    rw [mk_toList, h1]
    simp [h2]
  have e1 : splitNl (file.getD []
        ++ (([u].map fun v => v.toList ++ ['\n']).flatten))
      = ls ++ [u.toList, []] := by
    rw [he]
    simp only [List.map_cons, List.map_nil, List.flatten_cons, List.flatten_nil,
      List.append_nil]
    rw [splitNl_flat ls _ hls]
    congr 1
    have hline := splitNl_line u.toList [] h3
    simpa using hline
  have hload1 : load_sent_uids (append_sent_uids file [u])
      = (((ls.map fun l => pyStrip (String.mk l)).filter
          fun v => v ≠ "").toFinset) ∪ {u} := by
    show (((splitNl (file.getD []
        ++ (([u].map fun v => v.toList ++ ['\n']).flatten))).map
          fun l => pyStrip (String.mk l)).filter fun v => v ≠ "").toFinset = _
    rw [e1]
    rw [List.map_append, List.filter_append, List.toFinset_append]
    rw [hpair]
    simp
  have hls2 : ∀ l ∈ ls ++ [u.toList], '\n' ∉ l := by
    intro l hl
    rcases List.mem_append.mp hl with hl | hl
    · exact hls l hl
    · rw [List.mem_singleton] at hl
      subst hl
      exact h3
  have he2 : (append_sent_uids file [u]).getD []
      = ((ls ++ [u.toList]).map fun l => l ++ ['\n']).flatten := by
    show file.getD [] ++ (([u].map fun v => v.toList ++ ['\n']).flatten) = _
    rw [he]
    simp
  have e2 : splitNl ((append_sent_uids file [u]).getD []
        ++ (([u].map fun v => v.toList ++ ['\n']).flatten))
      = (ls ++ [u.toList]) ++ [u.toList, []] := by
    rw [he2]
    simp only [List.map_cons, List.map_nil, List.flatten_cons, List.flatten_nil,
      List.append_nil]
    rw [splitNl_flat (ls ++ [u.toList]) _ hls2]
    congr 1
    have hline := splitNl_line u.toList [] h3
    simpa using hline
  have hload2 : load_sent_uids (append_sent_uids (append_sent_uids file [u]) [u])
      = (((ls.map fun l => pyStrip (String.mk l)).filter
          fun v => v ≠ "").toFinset) ∪ {u} := by
    show (((splitNl ((append_sent_uids file [u]).getD []
        ++ (([u].map fun v => v.toList ++ ['\n']).flatten))).map
          fun l => pyStrip (String.mk l)).filter fun v => v ≠ "").toFinset = _
    rw [e2]
    rw [List.map_append, List.filter_append, List.toFinset_append,
      List.map_append, List.filter_append, List.toFinset_append]
    rw [hpair, hsingle, Finset.union_assoc]
    simp
  refine ⟨?_, ?_, rfl⟩
  · rw [hload1]
    simp
  · rw [hload1, hload2]

theorem ledger_roundtrip_witness :
    ledgerWF (some ['a', '\n']) ∧ pyStrip "u1" = "u1" ∧ ("u1" : String) ≠ ""
    ∧ '\n' ∉ "u1".toList
    ∧ ("u1" ∈ load_sent_uids (append_sent_uids (some ['a', '\n']) ["u1"])
      ∧ load_sent_uids
          (append_sent_uids (append_sent_uids (some ['a', '\n']) ["u1"]) ["u1"])
        = load_sent_uids (append_sent_uids (some ['a', '\n']) ["u1"])
      ∧ load_sent_uids none = ∅) :=
  ⟨Or.inr rfl, by decide, by decide, by decide,
    ledger_roundtrip (some ['a', '\n']) "u1" (Or.inr rfl)
      (by decide) (by decide) (by decide)⟩

/-! ## Claim C2: the acceptance decision chain -/

theorem list_any_congr {α : Type} (l : List α) (f g : α → Bool)
    (h : ∀ a ∈ l, f a = g a) : l.any f = l.any g := by
  induction l with
  | nil => rfl
  | cons a t ih =>
    simp only [List.any_cons]
    rw [h a (List.mem_cons_self a t), ih fun b hb => h b (List.mem_cons_of_mem a hb)]

theorem jsonAccept_eq_spec (acc : List Int) (subs : String)
    (p : Option (List (String × JVal))) :
    jsonAccept acc subs p = jsonSpecAccept acc subs p := by
  cases p with
  | none => rfl
  | some d =>
    unfold jsonAccept jsonSpecAccept
    cases hg : jget d "status" with
    | none => simp [hg]
    | some v =>
      cases v with
      | jint n =>
        by_cases hn : n ∈ acc
        · simp [hg, hn]
        · simp [hg, hn]
      | jstr s =>
        by_cases hsub : pyContains (pyLower s) subs = true
        · simp [hg, hsub]
        · simp [hg, hsub]
      | other => simp [hg]

theorem hdrAccept_eq_spec (subs : String) (hs : List (String × String))
    (hne : subs ≠ "") :
    hdrAccept subs hs = hdrSpecAccept subs hs := by
  unfold hdrAccept hdrSpecAccept
  apply list_any_congr
  intro k hk
  cases hdrVal hs k with
  | none => rfl
  | some v =>
    have hb : (subs != "") = true := by simpa using hne
    simp only [hb, Bool.true_and, Bool.or_assoc]

/-- C2: the acceptance decision of `send_payloads` equals the spec's
ordered short-circuit chain for every attempt result, accept-status set
and success substring; in particular status 429 with accept set `{200}`
is never accepted regardless of body, parse result or headers, and
status 200 with an `x-status: success` header is always accepted. -/
theorem acceptance_decision_spec (acc : List Int) (subs : String) (r : Resp) :
    acceptedCode acc subs r = acceptedSpec acc subs r
    ∧ (∀ (body : String) (parsed : Option (List (String × JVal)))
        (hdrs : List (String × String)) (s : String),
        acceptedCode [200] s ⟨429, body, parsed, hdrs⟩ = false)
    ∧ (∀ (body : String) (parsed : Option (List (String × JVal))) (s : String),
        acceptedCode [200] s ⟨200, body, parsed, [("x-status", "success")]⟩
          = true) := by
  refine ⟨?_, ?_, ?_⟩
  · unfold acceptedCode acceptedSpec
    by_cases hst : r.status ∈ acc
    · simp only [hst, if_true, not_true_eq_false, if_false]
      by_cases hsub : (subs == "") = true
      · simp [hsub]
      · simp only [hsub, if_false]
        by_cases hbody : pyContains (pyLower r.body) subs = true
        · simp [hbody]
        · simp only [hbody, if_false]
          rw [jsonAccept_eq_spec]
          by_cases hj : jsonSpecAccept acc subs r.parsed = true
          · simp [hj]
          · simp only [hj, if_false]
            exact hdrAccept_eq_spec subs r.headers (by simpa using hsub)
    · simp [hst]
  · intro body parsed hdrs s
    unfold acceptedCode
    norm_num
  · intro body parsed s
    unfold acceptedCode
    simp only [show ((200 : Int) ∈ [(200 : Int)]) = True by simp, if_true]
    by_cases hsub : (s == "") = true
    · simp [hsub]
    · simp only [hsub, if_false]
      by_cases hbody : pyContains (pyLower body) s = true
      · simp [hbody]
      · simp only [hbody, if_false]
        by_cases hj : jsonAccept [200] s parsed = true
        · simp [hj]
        · simp only [hj, if_false]
          rfl

/-! ## Orchestrator lemmas -/

theorem appendsOf_nil : appendsOf [] = [] := rfl

theorem appendsOf_append (l1 l2 : List Ev) :
    appendsOf (l1 ++ l2) = appendsOf l1 ++ appendsOf l2 := by
  simp [appendsOf]

/-- The attempt loop emits only POST events (for this batch) and backoff
sleeps: never a ledger append. -/
theorem attemptLoop_events (resp : Nat → Resp) (acc : List Int)
    (subs : String) (ws : ℚ) (idx : Nat) :
    ∀ (fuel attempt : Nat) (e : Ev),
      e ∈ (attemptLoop resp acc subs ws idx fuel attempt).1 →
      (∃ a, e = Ev.post idx a) ∨ ∃ d, e = Ev.sleep d := by
  intro fuel
  induction fuel with
  | zero => intro attempt e h; simp [attemptLoop] at h
  | succ f ih =>
    intro attempt e h
    unfold attemptLoop at h
    by_cases hacc : acceptedCode acc subs (resp (attempt + 1)) = true
    · rw [if_pos hacc] at h
      rw [List.mem_singleton] at h
      exact Or.inl ⟨attempt + 1, h⟩
    · rw [if_neg hacc] at h
      by_cases hf : f = 0
      · rw [if_pos hf, List.mem_singleton] at h
        exact Or.inl ⟨attempt + 1, h⟩
      · rw [if_neg hf] at h
        rcases List.mem_cons.mp h with h | h
        · exact Or.inl ⟨attempt + 1, h⟩
        · rcases List.mem_cons.mp h with h | h
          · exact Or.inr ⟨ws * 2 ^ attempt, h⟩
          · exact ih attempt.succ e h

theorem attemptLoop_no_append (resp : Nat → Resp) (acc : List Int)
    (subs : String) (ws : ℚ) (idx fuel attempt : Nat) (us : List String) :
    Ev.append us ∉ (attemptLoop resp acc subs ws idx fuel attempt).1 := by
  intro h
  rcases attemptLoop_events resp acc subs ws idx fuel attempt _ h with ⟨a, ha⟩ | ⟨d, hd⟩
  · exact Ev.noConfusion ha
  · exact Ev.noConfusion hd

theorem attemptLoop_appendsOf (resp : Nat → Resp) (acc : List Int)
    (subs : String) (ws : ℚ) (idx : Nat) :
    ∀ (fuel attempt : Nat),
      appendsOf (attemptLoop resp acc subs ws idx fuel attempt).1 = [] := by
  intro fuel
  induction fuel with
  | zero => intro attempt; rfl
  | succ f ih =>
    intro attempt
    unfold attemptLoop
    by_cases hacc : acceptedCode acc subs (resp (attempt + 1)) = true
    · rw [if_pos hacc]; rfl
    · rw [if_neg hacc]
      by_cases hf : f = 0
      · rw [if_pos hf]; rfl
      · rw [if_neg hf]
        show appendsOf (Ev.post idx (attempt + 1) :: Ev.sleep (ws * 2 ^ attempt)
          :: (attemptLoop resp acc subs ws idx f (attempt + 1)).1) = []
        simp only [appendsOf, List.flatMap_cons] at ih ⊢
        simpa using ih (attempt + 1)

theorem attemptLoop_post_idx (resp : Nat → Resp) (acc : List Int)
    (subs : String) (ws : ℚ) (idx fuel attempt i a : Nat)
    (h : Ev.post i a ∈ (attemptLoop resp acc subs ws idx fuel attempt).1) :
    i = idx := by
  rcases attemptLoop_events resp acc subs ws idx fuel attempt _ h
    with ⟨a', ha⟩ | ⟨d, hd⟩
  · cases ha; rfl
  · exact Ev.noConfusion hd

/-- If every attempt in the window is rejected, the attempt loop ends
without acceptance. -/
theorem attemptLoop_rejected (resp : Nat → Resp) (acc : List Int)
    (subs : String) (ws : ℚ) (idx : Nat) :
    ∀ (fuel attempt : Nat),
      (∀ a, attempt < a → a ≤ attempt + fuel →
        acceptedCode acc subs (resp a) = false) →
      (attemptLoop resp acc subs ws idx fuel attempt).2 = none := by
  intro fuel
  induction fuel with
  | zero => intro attempt _; rfl
  | succ f ih =>
    intro attempt h
    have ha : acceptedCode acc subs (resp (attempt + 1)) = false :=
      h _ (by omega) (by omega)
    unfold attemptLoop
    rw [if_neg (by simp [ha])]
    by_cases hf : f = 0
    · rw [if_pos hf]
    · rw [if_neg hf]
      exact ih (attempt + 1) fun a h1 h2 => h a (by omega) (by omega)

/-- If some attempt in the window is accepted, the attempt loop ends with
an acceptance. -/
theorem attemptLoop_accepted (resp : Nat → Resp) (acc : List Int)
    (subs : String) (ws : ℚ) (idx : Nat) :
    ∀ (fuel attempt a0 : Nat), attempt < a0 → a0 ≤ attempt + fuel →
      acceptedCode acc subs (resp a0) = true →
      ∃ a, (attemptLoop resp acc subs ws idx fuel attempt).2 = some a := by
  intro fuel
  induction fuel with
  | zero => intro attempt a0 h1 h2 _; omega
  | succ f ih =>
    intro attempt a0 h1 h2 hacc
    by_cases hfirst : acceptedCode acc subs (resp (attempt + 1)) = true
    · refine ⟨attempt + 1, ?_⟩
      unfold attemptLoop
      rw [if_pos hfirst]
    · have hne : a0 ≠ attempt + 1 := fun he => hfirst (he ▸ hacc)
      have hf : f ≠ 0 := by omega
      unfold attemptLoop
      rw [if_neg hfirst, if_neg hf]
      exact ih (attempt + 1) a0 (by omega) (by omega) hacc

theorem runBatch_rejected (resp : Nat → Resp) (acc : List Int)
    (subs : String) (ws : ℚ) (maxR idx : Nat) (body : List PayloadItem)
    (h : ∀ a, 1 ≤ a → a ≤ maxR → acceptedCode acc subs (resp a) = false) :
    runBatch resp acc subs ws maxR idx body
      = ((attemptLoop resp acc subs ws idx maxR 0).1, false) := by
  have h2 : (attemptLoop resp acc subs ws idx maxR 0).2 = none :=
    attemptLoop_rejected resp acc subs ws idx maxR 0
      fun a ha1 ha2 => h a (by omega) (by omega)
  unfold runBatch
  rw [h2]

theorem runBatch_accepted (resp : Nat → Resp) (acc : List Int)
    (subs : String) (ws : ℚ) (maxR idx : Nat) (body : List PayloadItem)
    (a0 : Nat) (h1 : 1 ≤ a0) (h2 : a0 ≤ maxR)
    (hacc : acceptedCode acc subs (resp a0) = true) :
    (runBatch resp acc subs ws maxR idx body).2 = true
    ∧ appendsOf (runBatch resp acc subs ws maxR idx body).1 = batchUids body := by
  obtain ⟨a, ha⟩ :=
    attemptLoop_accepted resp acc subs ws idx maxR 0 a0 (by omega) (by omega) hacc
  unfold runBatch
  rw [ha]
  refine ⟨rfl, ?_⟩
  rw [appendsOf_append, appendsOf_append,
    attemptLoop_appendsOf resp acc subs ws idx maxR 0]
  by_cases hb : batchUids body = []
  · simp [hb, appendsOf]
  · simp [hb, appendsOf]

theorem runBatch_post_idx (resp : Nat → Resp) (acc : List Int)
    (subs : String) (ws : ℚ) (maxR idx : Nat) (body : List PayloadItem)
    (i a : Nat)
    (h : Ev.post i a ∈ (runBatch resp acc subs ws maxR idx body).1) :
    i = idx := by
  unfold runBatch at h
  cases hres : (attemptLoop resp acc subs ws idx maxR 0).2 with
  | some x =>
    rw [hres] at h
    simp only [List.mem_append] at h
    rcases h with (h | h) | h
    · exact attemptLoop_post_idx resp acc subs ws idx maxR 0 i a h
    · by_cases hb : batchUids body = []
      · rw [if_pos hb] at h; simp at h
      · rw [if_neg hb] at h; simp at h
    · simp at h
  | none =>
    rw [hres] at h
    exact attemptLoop_post_idx resp acc subs ws idx maxR 0 i a h

theorem runBatch_append_mem (resp : Nat → Resp) (acc : List Int)
    (subs : String) (ws : ℚ) (maxR idx : Nat) (body : List PayloadItem)
    (us : List String)
    (h : Ev.append us ∈ (runBatch resp acc subs ws maxR idx body).1) :
    us = batchUids body := by
  unfold runBatch at h
  cases hres : (attemptLoop resp acc subs ws idx maxR 0).2 with
  | some x =>
    rw [hres] at h
    simp only [List.mem_append] at h
    rcases h with (h | h) | h
    · exact absurd h (attemptLoop_no_append resp acc subs ws idx maxR 0 us)
    · by_cases hb : batchUids body = []
      · rw [if_pos hb] at h; simp at h
      · rw [if_neg hb] at h
        rw [List.mem_singleton] at h
        cases h
        rfl
    · simp at h
  | none =>
    rw [hres] at h
    exact absurd h (attemptLoop_no_append resp acc subs ws idx maxR 0 us)

theorem sendGo_cons (resp : Nat → Nat → Resp) (acc : List Int)
    (subs : String) (ws : ℚ) (maxR idx : Nat) (body : List PayloadItem)
    (rest : List (List PayloadItem)) :
    sendGo resp acc subs ws maxR idx (body :: rest)
      = if (runBatch (resp idx) acc subs ws maxR idx body).2 then
          ((runBatch (resp idx) acc subs ws maxR idx body).1
            ++ (sendGo resp acc subs ws maxR (idx + 1) rest).1,
           (sendGo resp acc subs ws maxR (idx + 1) rest).2)
        else ((runBatch (resp idx) acc subs ws maxR idx body).1,
          some (idx, maxR)) := rfl

/-- Abort behaviour of the batch loop from an arbitrary starting batch
number: the batches before the failing one are each accepted at some
attempt, the failing one is rejected at every attempt. -/
theorem sendGo_abort (resp : Nat → Nat → Resp) (acc : List Int)
    (subs : String) (ws : ℚ) (maxR : Nat) :
    ∀ (pre : List (List PayloadItem)) (bk : List PayloadItem)
      (rest : List (List PayloadItem)) (idx0 : Nat),
      (∀ j, j < pre.length → ∃ a, 1 ≤ a ∧ a ≤ maxR ∧
        acceptedCode acc subs (resp (idx0 + j) a) = true) →
      (∀ a, 1 ≤ a → a ≤ maxR →
        acceptedCode acc subs (resp (idx0 + pre.length) a) = false) →
      (sendGo resp acc subs ws maxR idx0 (pre ++ bk :: rest)).2
          = some (idx0 + pre.length, maxR)
      ∧ (∀ i a, Ev.post i a ∈ (sendGo resp acc subs ws maxR idx0 (pre ++ bk :: rest)).1 →
          i ≤ idx0 + pre.length)
      ∧ appendsOf (sendGo resp acc subs ws maxR idx0 (pre ++ bk :: rest)).1
          = (pre.map batchUids).flatten := by
  intro pre
  induction pre with
  | nil =>
    intro bk rest idx0 _ hrej
    have hrej0 : ∀ a, 1 ≤ a → a ≤ maxR →
        acceptedCode acc subs (resp idx0 a) = false := by
      simpa using hrej
    have hrb := runBatch_rejected (resp idx0) acc subs ws maxR idx0 bk hrej0
    have hstep : sendGo resp acc subs ws maxR idx0 ([] ++ bk :: rest)
        = ((attemptLoop (resp idx0) acc subs ws idx0 maxR 0).1,
            some (idx0, maxR)) := by
      show sendGo resp acc subs ws maxR idx0 (bk :: rest) = _
      rw [sendGo_cons, hrb]
      simp
    rw [hstep]
    refine ⟨by simp, ?_, ?_⟩
    · intro i a h
      have := attemptLoop_post_idx (resp idx0) acc subs ws idx0 maxR 0 i a h
      omega
    · simpa using attemptLoop_appendsOf (resp idx0) acc subs ws idx0 maxR 0
  | cons b pre' ih =>
    intro bk rest idx0 hacc hrej
    obtain ⟨a0, ha1, ha2, ha3⟩ := hacc 0 (by simp)
    rw [Nat.add_zero] at ha3
    obtain ⟨hrb2, hrba⟩ :=
      runBatch_accepted (resp idx0) acc subs ws maxR idx0 b a0 ha1 ha2 ha3
    have hstep : sendGo resp acc subs ws maxR idx0 ((b :: pre') ++ bk :: rest)
        = ((runBatch (resp idx0) acc subs ws maxR idx0 b).1
            ++ (sendGo resp acc subs ws maxR (idx0 + 1) (pre' ++ bk :: rest)).1,
          (sendGo resp acc subs ws maxR (idx0 + 1) (pre' ++ bk :: rest)).2) := by
      show sendGo resp acc subs ws maxR idx0 (b :: (pre' ++ bk :: rest)) = _
      rw [sendGo_cons, if_pos hrb2]
    have hacc' : ∀ j, j < pre'.length → ∃ a, 1 ≤ a ∧ a ≤ maxR ∧
        acceptedCode acc subs (resp (idx0 + 1 + j) a) = true := by
      intro j hj
      obtain ⟨a, h1, h2, h3⟩ := hacc (j + 1) (by simp; omega)
      exact ⟨a, h1, h2, by rw [show idx0 + 1 + j = idx0 + (j + 1) by omega]; exact h3⟩
    have hrej' : ∀ a, 1 ≤ a → a ≤ maxR →
        acceptedCode acc subs (resp (idx0 + 1 + pre'.length) a) = false := by
      intro a h1 h2
      rw [show idx0 + 1 + pre'.length = idx0 + (b :: pre').length by simp; omega]
      exact hrej a h1 h2
    obtain ⟨ih1, ih2, ih3⟩ := ih bk rest (idx0 + 1) hacc' hrej'
    rw [hstep]
    refine ⟨?_, ?_, ?_⟩
    · rw [ih1]
      congr 2
      simp
      omega
    · intro i a h
      rcases List.mem_append.mp h with h | h
      · have := runBatch_post_idx (resp idx0) acc subs ws maxR idx0 b i a h
        simp only [List.length_cons]
        omega
      · have := ih2 i a h
        simp only [List.length_cons]
        omega
    · rw [appendsOf_append, hrba, ih3]
      simp

/-! ## Claim C1: retry exhaustion aborts the run with a prefix ledger -/

/-- C1: if every batch before the k-th (k = pre.length + 1) is accepted at
some attempt within `maxR`, and every one of the `maxR` attempts at the
k-th batch is rejected, then `send_payloads` terminates with the failure
identifying batch k and the `maxR` attempts, no POST is ever made for a
batch after the k-th, and the ledger receives exactly the uids of the
accepted batches 1..k-1, in order. -/
theorem send_payloads_abort (resp : Nat → Nat → Resp) (acc : List Int)
    (subs : String) (ws : ℚ) (maxR : Nat) (pre : List (List PayloadItem))
    (bk : List PayloadItem) (rest : List (List PayloadItem))
    (hacc : ∀ j, j < pre.length → ∃ a, 1 ≤ a ∧ a ≤ maxR ∧
      acceptedCode acc subs (resp (1 + j) a) = true)
    (hrej : ∀ a, 1 ≤ a → a ≤ maxR →
      acceptedCode acc subs (resp (1 + pre.length) a) = false) :
    (send_payloads resp acc subs ws maxR (pre ++ bk :: rest)).2
        = some (1 + pre.length, maxR)
    ∧ (∀ i a, Ev.post i a ∈ (send_payloads resp acc subs ws maxR (pre ++ bk :: rest)).1 →
        i ≤ 1 + pre.length)
    ∧ appendsOf (send_payloads resp acc subs ws maxR (pre ++ bk :: rest)).1
        = (pre.map batchUids).flatten :=
  sendGo_abort resp acc subs ws maxR pre bk rest 1 hacc hrej

def respOK : Resp := ⟨200, "terminado", none, []⟩

def respBad : Resp := ⟨500, "error", none, []⟩

/-- A webhook that accepts batch 1 immediately and rejects batch 2 forever. -/
def oracle1 : Nat → Nat → Resp := fun i _ => if i = 1 then respOK else respBad

theorem send_payloads_abort_witness :
    (∀ j, j < ([[⟨"u1", "", "", "", ""⟩]] : List (List PayloadItem)).length →
      ∃ a, 1 ≤ a ∧ a ≤ 2 ∧
        acceptedCode [200] "terminado" (oracle1 (1 + j) a) = true)
    ∧ (∀ a, 1 ≤ a → a ≤ 2 →
        acceptedCode [200] "terminado"
          (oracle1 (1 + ([[⟨"u1", "", "", "", ""⟩]] : List (List PayloadItem)).length) a) = false)
    ∧ ((send_payloads oracle1 [200] "terminado" 1 2
          ([[⟨"u1", "", "", "", ""⟩]] ++ [⟨"u2", "", "", "", ""⟩] :: [[⟨"u3", "", "", "", ""⟩]])).2
        = some (1 + ([[⟨"u1", "", "", "", ""⟩]] : List (List PayloadItem)).length, 2)
      ∧ (∀ i a, Ev.post i a ∈ (send_payloads oracle1 [200] "terminado" 1 2
            ([[⟨"u1", "", "", "", ""⟩]] ++ [⟨"u2", "", "", "", ""⟩] :: [[⟨"u3", "", "", "", ""⟩]])).1 →
          i ≤ 1 + ([[⟨"u1", "", "", "", ""⟩]] : List (List PayloadItem)).length)
      ∧ appendsOf (send_payloads oracle1 [200] "terminado" 1 2
            ([[⟨"u1", "", "", "", ""⟩]] ++ [⟨"u2", "", "", "", ""⟩] :: [[⟨"u3", "", "", "", ""⟩]])).1
          = (([[⟨"u1", "", "", "", ""⟩]] : List (List PayloadItem)).map batchUids).flatten) := by
  have hacc : ∀ j, j < ([[⟨"u1", "", "", "", ""⟩]] : List (List PayloadItem)).length →
      ∃ a, 1 ≤ a ∧ a ≤ 2 ∧
        acceptedCode [200] "terminado" (oracle1 (1 + j) a) = true := by
    intro j hj
    have hj0 : j = 0 := by simpa using hj
    subst hj0
    exact ⟨1, by omega, by omega, by decide⟩
  have hrej : ∀ a, 1 ≤ a → a ≤ 2 →
      acceptedCode [200] "terminado"
        (oracle1 (1 + ([[⟨"u1", "", "", "", ""⟩]] : List (List PayloadItem)).length) a) = false := by
    intro a _ _
    show acceptedCode [200] "terminado" respBad = false
    decide
  exact ⟨hacc, hrej,
    send_payloads_abort oracle1 [200] "terminado" 1 2
      [[⟨"u1", "", "", "", ""⟩]] [⟨"u2", "", "", "", ""⟩] [[⟨"u3", "", "", "", ""⟩]] hacc hrej⟩

/-! ## Claim C5: backoff and settle-delay timing -/

/-- The trace of `m` consecutive rejected attempts numbered
`first+1, ..., first+m`, each POST immediately followed by its exponential
backoff sleep `ws * 2 ^ (attempt - 1)`. -/
def rejTrace (ws : ℚ) (idx first m : Nat) : List Ev :=
  (List.range m).flatMap fun i =>
    [Ev.post idx (first + i + 1), Ev.sleep (ws * 2 ^ (first + i))]

theorem rejTrace_zero (ws : ℚ) (idx first : Nat) :
    rejTrace ws idx first 0 = [] := rfl

theorem rejTrace_succ (ws : ℚ) (idx first n : Nat) :
    rejTrace ws idx first (n + 1)
      = Ev.post idx (first + 1) :: Ev.sleep (ws * 2 ^ first)
          :: rejTrace ws idx (first + 1) n := by
  unfold rejTrace
  rw [List.range_succ_eq_map]
  rw [List.flatMap_cons]
  simp only [Nat.add_zero, List.cons_append, List.nil_append]
  congr 1
  congr 1
  rw [List.flatMap_map]
  apply List.flatMap_congr
  intro i _
  have h1 : first + (i + 1) = first + 1 + i := by omega
  show [Ev.post idx (first + (i + 1) + 1), Ev.sleep (ws * 2 ^ (first + (i + 1)))] = _
  rw [h1]

/-- Closed form of the attempt loop when every attempt in the window is
rejected: `fuel - 1` post/backoff pairs followed by a final POST with no
trailing sleep. -/
theorem attemptLoop_reject_trace (resp : Nat → Resp) (acc : List Int)
    (subs : String) (ws : ℚ) (idx : Nat) :
    ∀ (fuel attempt : Nat), 1 ≤ fuel →
      (∀ a, attempt < a → a ≤ attempt + fuel →
        acceptedCode acc subs (resp a) = false) →
      attemptLoop resp acc subs ws idx fuel attempt
        = (rejTrace ws idx attempt (fuel - 1)
            ++ [Ev.post idx (attempt + fuel)], none) := by
  intro fuel
  induction fuel with
  | zero => intro attempt h; omega
  | succ f ih =>
    intro attempt _ h
    have ha : acceptedCode acc subs (resp (attempt + 1)) = false :=
      h _ (by omega) (by omega)
    unfold attemptLoop
    rw [if_neg (by simp [ha])]
    by_cases hf : f = 0
    · subst hf
      rw [if_pos rfl]
      rw [rejTrace_zero]
      rfl
    · rw [if_neg hf]
      rw [ih (attempt + 1) (by omega) (fun a h1 h2 => h a (by omega) (by omega))]
      have hn : f - 1 + 1 = f + 1 - 1 := by omega
      rw [show attempt + 1 + f = attempt + (f + 1) by omega] at *
      rw [← hn, rejTrace_succ]
      rfl

/-- Closed form of the attempt loop when the first accepted attempt is
`a0`: `a0 - attempt - 1` post/backoff pairs, then the accepted POST. -/
theorem attemptLoop_accept_trace (resp : Nat → Resp) (acc : List Int)
    (subs : String) (ws : ℚ) (idx : Nat) :
    ∀ (fuel attempt a0 : Nat), attempt < a0 → a0 ≤ attempt + fuel →
      (∀ a, attempt < a → a < a0 → acceptedCode acc subs (resp a) = false) →
      acceptedCode acc subs (resp a0) = true →
      attemptLoop resp acc subs ws idx fuel attempt
        = (rejTrace ws idx attempt (a0 - attempt - 1)
            ++ [Ev.post idx a0], some a0) := by
  intro fuel
  induction fuel with
  | zero => intro attempt a0 h1 h2 _ _; omega
  | succ f ih =>
    intro attempt a0 h1 h2 hrej hacc
    by_cases hfirst : a0 = attempt + 1
    · subst hfirst
      unfold attemptLoop
      rw [if_pos hacc]
      rw [show attempt + 1 - attempt - 1 = 0 by omega, rejTrace_zero]
      rfl
    · have hje : acceptedCode acc subs (resp (attempt + 1)) = false :=
        hrej _ (by omega) (by omega)
      unfold attemptLoop
      rw [if_neg (by simp [hje])]
      have hf : f ≠ 0 := by omega
      rw [if_neg hf]
      rw [ih (attempt + 1) a0 (by omega) (by omega)
        (fun a ha1 ha2 => hrej a (by omega) ha2) hacc]
      have hn : a0 - attempt - 1 = (a0 - (attempt + 1) - 1) + 1 := by omega
      rw [hn, rejTrace_succ]
      rfl

/-- C5: (i) when every attempt of a batch is rejected, the batch's trace is
`maxR - 1` POSTs each immediately followed by its backoff sleep
`ws * 2 ^ (attempt - 1)` (attempt 1-indexed: `rejTrace` pairs
`post idx (i+1)` with `sleep (ws * 2 ^ i)`), then the final rejected POST
with no sleep after it; (ii) when the first accepted attempt is `a0`, the
trace is the `a0 - 1` rejected post/backoff pairs, the accepted POST, the
ledger append of the batch's (non-empty) stripped uids, and a settle sleep
of exactly `ws` before the next batch. -/
theorem sender_backoff_spec (resp : Nat → Resp) (acc : List Int)
    (subs : String) (ws : ℚ) (maxR idx : Nat) (body : List PayloadItem)
    (a0 : Nat) (h1 : 1 ≤ a0) (h2 : a0 ≤ maxR)
    (hrej : ∀ a, 1 ≤ a → a < a0 → acceptedCode acc subs (resp a) = false) :
    ((∀ a, a0 ≤ a → a ≤ maxR → acceptedCode acc subs (resp a) = false) →
      runBatch resp acc subs ws maxR idx body
        = (rejTrace ws idx 0 (maxR - 1) ++ [Ev.post idx maxR], false))
    ∧ (acceptedCode acc subs (resp a0) = true →
      runBatch resp acc subs ws maxR idx body
        = (rejTrace ws idx 0 (a0 - 1) ++ [Ev.post idx a0]
            ++ (if batchUids body = [] then [] else [Ev.append (batchUids body)])
            ++ [Ev.sleep ws], true)) := by
  constructor
  · intro hall
    have htr := attemptLoop_reject_trace resp acc subs ws idx maxR 0
      (by omega) (fun a ha1 ha2 => by
        rcases Nat.lt_or_ge a a0 with hlt | hge
        · exact hrej a (by omega) hlt
        · exact hall a (by omega) (by omega))
    rw [Nat.zero_add] at htr
    unfold runBatch
    rw [htr]
  · intro hacc
    have htr := attemptLoop_accept_trace resp acc subs ws idx maxR 0 a0
      (by omega) (by omega) (fun a ha1 ha2 => hrej a (by omega) ha2) hacc
    rw [show a0 - 0 - 1 = a0 - 1 by omega] at htr
    unfold runBatch
    rw [htr]

/-- A webhook that rejects attempt 1 and accepts attempt 2. -/
def oracle2 : Nat → Resp := fun a => if a = 2 then respOK else respBad

theorem sender_backoff_spec_witness :
    1 ≤ 2 ∧ 2 ≤ 3
    ∧ (∀ a, 1 ≤ a → a < 2 → acceptedCode [200] "terminado" (oracle2 a) = false)
    ∧ (((∀ a, 2 ≤ a → a ≤ 3 → acceptedCode [200] "terminado" (oracle2 a) = false) →
        runBatch oracle2 [200] "terminado" 1 3 7 [⟨"u1", "", "", "", ""⟩]
          = (rejTrace 1 7 0 (3 - 1) ++ [Ev.post 7 3], false))
      ∧ (acceptedCode [200] "terminado" (oracle2 2) = true →
        runBatch oracle2 [200] "terminado" 1 3 7 [⟨"u1", "", "", "", ""⟩]
          = (rejTrace 1 7 0 (2 - 1) ++ [Ev.post 7 2]
              ++ (if batchUids [⟨"u1", "", "", "", ""⟩] = []
                  then [] else [Ev.append (batchUids [⟨"u1", "", "", "", ""⟩])])
              ++ [Ev.sleep 1], true))) := by
  have hrej : ∀ a, 1 ≤ a → a < 2 →
      acceptedCode [200] "terminado" (oracle2 a) = false := by
    intro a ha1 ha2
    have : a = 1 := by omega
    subst this
    decide
  exact ⟨by omega, by omega, hrej,
    sender_backoff_spec oracle2 [200] "terminado" 1 3 7 [⟨"u1", "", "", "", ""⟩]
      2 (by omega) (by omega) hrej⟩

/-! ## Claim C10: empty uids are never ledgered and never deduplicated -/

theorem sendGo_append_sources (resp : Nat → Nat → Resp) (acc : List Int)
    (subs : String) (ws : ℚ) (maxR : Nat) :
    ∀ (payloads : List (List PayloadItem)) (idx : Nat) (us : List String),
      Ev.append us ∈ (sendGo resp acc subs ws maxR idx payloads).1 →
      ∃ body ∈ payloads, us = batchUids body := by
  intro payloads
  induction payloads with
  | nil => intro idx us h; simp [sendGo] at h
  | cons b rest ih =>
    intro idx us h
    rw [sendGo_cons] at h
    by_cases hrb : (runBatch (resp idx) acc subs ws maxR idx b).2 = true
    · rw [if_pos hrb] at h
      rcases List.mem_append.mp h with h | h
      · exact ⟨b, List.mem_cons_self b rest,
          runBatch_append_mem (resp idx) acc subs ws maxR idx b us h⟩
      · obtain ⟨body, hb, hus⟩ := ih (idx + 1) us h
        exact ⟨body, List.mem_cons_of_mem b hb, hus⟩
    · rw [if_neg hrb] at h
      exact ⟨b, List.mem_cons_self b rest,
        runBatch_append_mem (resp idx) acc subs ws maxR idx b us h⟩

theorem batchUids_mem_ne_empty (body : List PayloadItem) :
    ∀ u ∈ batchUids body, u ≠ "" := by
  intro u hu
  unfold batchUids at hu
  rw [List.mem_filter] at hu
  simpa using hu.2

/-- C10: during any run of `send_payloads`, every list of uids appended to
the ledger is the filtered stripped-uid list of one of the payload batches
and contains no empty string — so a payload item whose uid strips to the
empty string (absent or whitespace-only uid) is never ledgered even when
its batch is accepted; and the pre-send dedup step keeps a record `r` of
the filtered list iff it is NOT the case that `r`'s stripped uid is
non-empty and already in the loaded ledger set — in particular a record
whose uid strips to `""` is always kept, hence re-sent on every run. -/
theorem uid_ledger_dedup_spec (resp : Nat → Nat → Resp) (acc : List Int)
    (subs : String) (ws : ℚ) (maxR : Nat)
    (payloads : List (List PayloadItem)) (sent : Finset String)
    (l : List Record) (r : Record) (hr : r ∈ l) :
    (∀ us, Ev.append us ∈ (send_payloads resp acc subs ws maxR payloads).1 →
      (∃ body ∈ payloads, us = batchUids body) ∧ ∀ u ∈ us, u ≠ "")
    ∧ (r ∈ dedupRemaining sent l ↔
        ¬(pyStrip (r.uid.getD "") ≠ "" ∧ pyStrip (r.uid.getD "") ∈ sent))
    ∧ (pyStrip (r.uid.getD "") = "" → r ∈ dedupRemaining sent l) := by
  have hiff : r ∈ dedupRemaining sent l ↔
      ¬(pyStrip (r.uid.getD "") ≠ "" ∧ pyStrip (r.uid.getD "") ∈ sent) := by
    unfold dedupRemaining
    rw [List.mem_filter]
    constructor
    · rintro ⟨-, hp⟩
      simp only [not_and, ne_eq, not_not]
      intro hne
      simp only [Bool.not_eq_true', Bool.and_eq_false_iff, bne_eq_false_iff_eq,
        decide_eq_false_iff_not] at hp
      rcases hp with hp | hp
      · exact absurd hp hne
      · exact hp
    · intro hp
      rw [not_and, ne_eq] at hp
      refine ⟨hr, ?_⟩
      simp only [Bool.not_eq_true', Bool.and_eq_false_iff, bne_eq_false_iff_eq,
        decide_eq_false_iff_not]
      by_cases he : pyStrip (r.uid.getD "") = ""
      · exact Or.inl he
      · exact Or.inr (hp he)
  refine ⟨?_, hiff, ?_⟩
  · intro us h
    obtain ⟨body, hb, hus⟩ :=
      sendGo_append_sources resp acc subs ws maxR payloads 1 us h
    exact ⟨⟨body, hb, hus⟩, hus ▸ batchUids_mem_ne_empty body⟩
  · intro hempty
    rw [hiff]
    rintro ⟨hne, -⟩
    exact hne hempty

theorem uid_ledger_dedup_spec_witness :
    rOk ∈ [rOk]
    ∧ ((∀ us, Ev.append us ∈ (send_payloads oracle1 [200] "terminado" 1 2 []).1 →
        (∃ body ∈ ([] : List (List PayloadItem)), us = batchUids body)
          ∧ ∀ u ∈ us, u ≠ "")
      ∧ (rOk ∈ dedupRemaining ∅ [rOk] ↔
          ¬(pyStrip (rOk.uid.getD "") ≠ ""
            ∧ pyStrip (rOk.uid.getD "") ∈ (∅ : Finset String)))
      ∧ (pyStrip (rOk.uid.getD "") = "" → rOk ∈ dedupRemaining ∅ [rOk])) :=
  ⟨by decide,
    uid_ledger_dedup_spec oracle1 [200] "terminado" 1 2 [] ∅ [rOk] rOk (by decide)⟩
